import Mathlib

/-!
# Vector_Library.h : kinematic formulas for Drell-Yan events

A shallow embedding of `src/Vector_Library.h`.

## Number model

The C++ code computes in `float`/`double`.  Here a floating-point value is a
`FloatVal`: either a finite real number, one of the two infinities, or NaN.
Arithmetic on finite values is exact real arithmetic (rounding, overflow,
underflow and the sign of zero are not represented); what IS represented is
the IEEE-754 treatment of the special values, in particular division by
zero (`x / 0` is `+inf`, `-inf` or NaN according to the sign of `x`, a zero
divisor being read as `+0`) and the propagation of NaN.  The one place where
underflow is represented is `toFloat`, the conversion of a result to the
`float` return type, which `wDFloat` and `wNFloat` apply to the weights.

## Library calls

`sqrt`, `pow` and `log` are the C library functions.  The declaration that the
unqualified call `abs(x)` resolves to lives in system headers outside the
sources; it is read, as the spec reads it, as the absolute value of the
floating-point argument.

## Four-vectors

`ROOT::Math::PtEtaPhiMVector` comes from `<Math/Vector4D.h>`, which is not
among the sources.  It is modelled from the spec as an energy plus
three-momentum state with finite real components, which also holds its
pseudorapidity coordinate, with component-wise addition and the accessors the
spec names.  The functions of `Vector_Library.h` themselves are transcribed
from the source.
-/

namespace VectorLibrary

/-- A floating-point value: a finite real, plus or minus infinity, or NaN. -/
inductive FloatVal where
  | fin (x : ℝ)
  | pinf
  | ninf
  | nan

namespace FloatVal

/-- IEEE-754 negation. -/
noncomputable def neg : FloatVal → FloatVal
  | fin x => fin (-x)
  | pinf => ninf
  | ninf => pinf
  | nan => nan

/-- IEEE-754 addition: `inf + -inf` is NaN. -/
noncomputable def add : FloatVal → FloatVal → FloatVal
  | fin x, fin y => fin (x + y)
  | fin _, pinf => pinf
  | fin _, ninf => ninf
  | pinf, fin _ => pinf
  | pinf, pinf => pinf
  | ninf, fin _ => ninf
  | ninf, ninf => ninf
  | _, _ => nan

/-- IEEE-754 subtraction. -/
noncomputable def sub (a b : FloatVal) : FloatVal := add a (neg b)

/-- The product of the finite value `x` with an infinity (`positive` tells
its sign): NaN when `x = 0`, otherwise the infinity with the product's sign. -/
noncomputable def infTimes (x : ℝ) (positive : Bool) : FloatVal :=
  if x = 0 then nan
  else if 0 < x then (if positive then pinf else ninf)
  else (if positive then ninf else pinf)

/-- IEEE-754 multiplication: `0 * inf` is NaN. -/
noncomputable def mul : FloatVal → FloatVal → FloatVal
  | fin x, fin y => fin (x * y)
  | fin x, pinf => infTimes x true
  | fin x, ninf => infTimes x false
  | pinf, fin y => infTimes y true
  | ninf, fin y => infTimes y false
  | pinf, pinf => pinf
  | pinf, ninf => ninf
  | ninf, pinf => ninf
  | ninf, ninf => pinf
  | _, _ => nan

/-- IEEE-754 division.  A finite value divided by zero is NaN when the
dividend is zero and an infinity with the dividend's sign otherwise; a finite
value divided by an infinity is zero; `inf / inf` is NaN. -/
noncomputable def div : FloatVal → FloatVal → FloatVal
  | fin x, fin y =>
      if y = 0 then
        (if x = 0 then nan else if 0 < x then pinf else ninf)
      else fin (x / y)
  | fin _, pinf => fin 0
  | fin _, ninf => fin 0
  | pinf, fin y => if 0 ≤ y then pinf else ninf
  | ninf, fin y => if 0 ≤ y then ninf else pinf
  | _, _ => nan

/-- C `sqrt`: NaN for a negative argument. -/
noncomputable def sqrt : FloatVal → FloatVal
  | fin x => if x < 0 then nan else fin (Real.sqrt x)
  | pinf => pinf
  | ninf => nan
  | nan => nan

/-- Modelled from the spec: the declaration of `abs` that the calls
`abs(pz)` and `abs(CosTheta)` resolve to is in system headers outside the
sources; the spec (4.8, 4.11) reads it as the absolute value `|x|` of the
floating-point argument. -/
noncomputable def abs : FloatVal → FloatVal
  | fin x => fin |x|
  | pinf => pinf
  | ninf => pinf
  | nan => nan

/-- C `pow(x, n)` for a non-negative integer exponent `n`, as repeated
multiplication; `pow(x, 0)` is 1 for every `x`, NaN included. -/
noncomputable def pow (x : FloatVal) : ℕ → FloatVal
  | 0 => fin 1
  | n + 1 => mul x (pow x n)

/-- C `log`: `-inf` at zero, NaN for a negative argument. -/
noncomputable def log : FloatVal → FloatVal
  | fin x => if x < 0 then nan else if x = 0 then ninf else fin (Real.log x)
  | pinf => pinf
  | ninf => nan
  | nan => nan

/-- C `asinh`: the inverse hyperbolic sine, which keeps an infinity and NaN. -/
noncomputable def asinh : FloatVal → FloatVal
  | fin x => fin (Real.arsinh x)
  | pinf => pinf
  | ninf => ninf
  | nan => nan

/-- Conversion of a `double` result to the `float` return type, as far as its
zero results go: under round-to-nearest-even a finite value becomes zero
exactly when its magnitude is at most `2^-150`, half the smallest positive
`float`.  Every other value is kept exact, as in the rest of this model. -/
noncomputable def toFloat : FloatVal → FloatVal
  | fin x => if |x| ≤ (1 / 2) ^ 150 then fin 0 else fin x
  | pinf => pinf
  | ninf => ninf
  | nan => nan

noncomputable instance : Add FloatVal := ⟨add⟩
noncomputable instance : Sub FloatVal := ⟨sub⟩
noncomputable instance : Mul FloatVal := ⟨mul⟩
noncomputable instance : Div FloatVal := ⟨div⟩
noncomputable instance : Neg FloatVal := ⟨neg⟩

end FloatVal

open FloatVal

/-- Modelled from the spec: the four-vector type `ROOT::Math::PtEtaPhiMVector`
declared by `<Math/Vector4D.h>`, which the header includes but which is not
among the sources.  The spec describes it as an energy plus three-momentum
state whose combination adds energy and momentum components; the model keeps
those four components, as finite reals.  It also keeps the pseudorapidity
coordinate `eta` that the accessor `Eta()` returns: the library holds it as
given at construction (the momentum alone does not determine it when
`pt = 0`), and for a sum it is the pseudorapidity of the summed momentum. -/
structure PtEtaPhiMVector where
  px : ℝ
  py : ℝ
  pz : ℝ
  e : ℝ
  eta : FloatVal

namespace PtEtaPhiMVector

/-- Modelled from the spec: the library constructor
`PtEtaPhiMVector(pt, eta, phi, mass)`, absent from the sources, with the
textbook meaning of the transverse-momentum / pseudorapidity /
azimuthal-angle / mass parameterization:
`px = pt cos phi`, `py = pt sin phi`, `pz = pt sinh eta`,
`E = sqrt(|p|^2 + mass^2)` where `|p| = pt cosh eta`.  The inputs are finite
reals; the parameterization is meant for `pt >= 0` and `mass >= 0`. -/
noncomputable def ofPtEtaPhiM (pt eta phi mass : ℝ) : PtEtaPhiMVector where
  px := pt * Real.cos phi
  py := pt * Real.sin phi
  pz := pt * Real.sinh eta
  e := Real.sqrt ((pt * Real.cosh eta) ^ 2 + mass ^ 2)
  eta := fin eta

/-- Modelled from the spec: the library `operator+`, absent from the sources;
energy and momentum components add.  The pseudorapidity coordinate of the
result is that of the summed momentum, `asinh(pz / pt)` with
`pt = sqrt(px^2 + py^2)`, the inverse of `pz = pt sinh eta`. -/
noncomputable def add (p q : PtEtaPhiMVector) : PtEtaPhiMVector where
  px := p.px + q.px
  py := p.py + q.py
  pz := p.pz + q.pz
  e := p.e + q.e
  eta := asinh (fin (p.pz + q.pz) / sqrt (fin ((p.px + q.px) ^ 2 + (p.py + q.py) ^ 2)))

noncomputable instance : Add PtEtaPhiMVector := ⟨add⟩

/-- Modelled from the spec: the library accessor `E()`, the energy. -/
noncomputable def E (v : PtEtaPhiMVector) : FloatVal := fin v.e

/-- Modelled from the spec: the library accessor `Px()`. -/
noncomputable def Px (v : PtEtaPhiMVector) : FloatVal := fin v.px

/-- Modelled from the spec: the library accessor `Py()`. -/
noncomputable def Py (v : PtEtaPhiMVector) : FloatVal := fin v.py

/-- Modelled from the spec: the library accessor `Pz()`, the longitudinal
momentum. -/
noncomputable def Pz (v : PtEtaPhiMVector) : FloatVal := fin v.pz

/-- Modelled from the spec: the library accessor `M()`, the magnitude
`sqrt(E^2 - |p|^2)`; NaN for a spacelike vector (spec 4.3). -/
noncomputable def M (v : PtEtaPhiMVector) : FloatVal :=
  sqrt (v.E * v.E - (v.Px * v.Px + v.Py * v.Py + v.Pz * v.Pz))

/-- Modelled from the spec: the library accessor `Rapidity()`,
`0.5 * ln((E + pz) / (E - pz))` (spec 4.4), with no guard. -/
noncomputable def Rapidity (v : PtEtaPhiMVector) : FloatVal :=
  fin 0.5 * log ((v.E + v.Pz) / (v.E - v.Pz))

/-- Modelled from the spec: the library accessor `Pt()`, the transverse
momentum `sqrt(px^2 + py^2)` (spec 4.6). -/
noncomputable def Pt (v : PtEtaPhiMVector) : FloatVal :=
  sqrt (v.Px * v.Px + v.Py * v.Py)

/-- Modelled from the spec: the library accessor `Eta()`, the pseudorapidity,
absent from the sources; it returns the pseudorapidity coordinate the vector
holds. -/
noncomputable def Eta (v : PtEtaPhiMVector) : FloatVal := v.eta

end PtEtaPhiMVector

/-! ## The functions of `Vector_Library.h` -/

/-- Source function `Vector(pt1, eta1, phi1, mass)`: calls the library constructor. -/
noncomputable def Vector (pt1 eta1 phi1 mass : ℝ) : PtEtaPhiMVector :=
  PtEtaPhiMVector.ofPtEtaPhiM pt1 eta1 phi1 mass

/-- Source function `invMass(p1, p2)`: `return (p1+p2).M();` -/
noncomputable def invMass (p1 p2 : PtEtaPhiMVector) : FloatVal :=
  (p1 + p2).M

/-- Source function `Rapidity(p1, p2)`: `return (p1+p2).Rapidity();` -/
noncomputable def Rapidity (p1 p2 : PtEtaPhiMVector) : FloatVal :=
  (p1 + p2).Rapidity

/-- Source function `pz(p1, p2)`: `return (p1+p2).Pz();` -/
noncomputable def pz (p1 p2 : PtEtaPhiMVector) : FloatVal :=
  (p1 + p2).Pz

/-- Source function `P1p(p1)`: `return (p1.E() + p1.Pz())/sqrt(2);` -/
noncomputable def P1p (p1 : PtEtaPhiMVector) : FloatVal :=
  (p1.E + p1.Pz) / sqrt (fin 2)

/-- Source function `P2p(p2)`: `return (p2.E() + p2.Pz())/sqrt(2);` -/
noncomputable def P2p (p2 : PtEtaPhiMVector) : FloatVal :=
  (p2.E + p2.Pz) / sqrt (fin 2)

/-- Source function `P1m(p1)`: `return (p1.E() - p1.Pz())/sqrt(2);` -/
noncomputable def P1m (p1 : PtEtaPhiMVector) : FloatVal :=
  (p1.E - p1.Pz) / sqrt (fin 2)

/-- Source function `P2m(p2)`: `return (p2.E() - p2.Pz())/sqrt(2);` -/
noncomputable def P2m (p2 : PtEtaPhiMVector) : FloatVal :=
  (p2.E - p2.Pz) / sqrt (fin 2)

/-- Source function `SystempT(p1, p2)`: `return (p1+p2).Pt();` -/
noncomputable def SystempT (p1 p2 : PtEtaPhiMVector) : FloatVal :=
  (p1 + p2).Pt

/-- Source function `CosTheta(invMass, pz, P1p, P2p, P1m, P2m, SystempT)`:
`return ((2*(P1p*P2m - P1m*P2p)*pz)/(sqrt(pow(invMass,2)*(pow(invMass,2) + pow(SystempT,2)))*abs(pz)));` -/
noncomputable def CosTheta (invMass pz P1p P2p P1m P2m SystempT : FloatVal) : FloatVal :=
  (fin 2 * (P1p * P2m - P1m * P2p) * pz)
    / (sqrt (pow invMass 2 * (pow invMass 2 + pow SystempT 2)) * FloatVal.abs pz)

/-- Source function `h(CosTheta)`: `float A0 = 0.1; return (0.5*A0*(1-3*pow(CosTheta,2)));` -/
noncomputable def h (CosTheta : FloatVal) : FloatVal :=
  let A0 : FloatVal := fin 0.1
  fin 0.5 * A0 * (fin 1 - fin 3 * pow CosTheta 2)

/-- Source function `wD(CosTheta, h)`: `return (0.5*pow(CosTheta,2)/(pow((1+pow(CosTheta,2)+h),3)));` -/
noncomputable def wD (CosTheta h : FloatVal) : FloatVal :=
  fin 0.5 * pow CosTheta 2 / pow (fin 1 + pow CosTheta 2 + h) 3

/-- Source function `wN(CosTheta, h)`: `return (0.5*abs(CosTheta)/(pow((1+pow(CosTheta,2)+h),2)));` -/
noncomputable def wN (CosTheta h : FloatVal) : FloatVal :=
  fin 0.5 * FloatVal.abs CosTheta / pow (fin 1 + pow CosTheta 2 + h) 2

/-- Source function `wD` with its result converted to the `float` return type:
`float wD(float CosTheta, float h)`. -/
noncomputable def wDFloat (CosTheta h : FloatVal) : FloatVal :=
  toFloat (wD CosTheta h)

/-- Source function `wN` with its result converted to the `float` return type:
`float wN(float CosTheta, float h)`. -/
noncomputable def wNFloat (CosTheta h : FloatVal) : FloatVal :=
  toFloat (wN CosTheta h)

/-! ## Arithmetic on finite values -/

namespace FloatVal

@[simp]
theorem fin_add_fin (x y : ℝ) : fin x + fin y = fin (x + y) := rfl

@[simp]
theorem fin_sub_fin (x y : ℝ) : fin x - fin y = fin (x - y) := by
  show add (fin x) (neg (fin y)) = fin (x - y)
  simp [add, neg, sub_eq_add_neg]

@[simp]
theorem fin_mul_fin (x y : ℝ) : fin x * fin y = fin (x * y) := rfl

theorem fin_div_fin (x y : ℝ) (hy : y ≠ 0) : fin x / fin y = fin (x / y) := by
  show div (fin x) (fin y) = fin (x / y)
  simp [div, hy]

theorem fin_div_zero (x : ℝ) :
    fin x / fin 0 = if x = 0 then nan else if 0 < x then pinf else ninf := by
  show div (fin x) (fin 0) = _
  simp [div]

theorem sqrt_fin (x : ℝ) (hx : 0 ≤ x) : sqrt (fin x) = fin (Real.sqrt x) := by
  simp [sqrt, not_lt.mpr hx]

@[simp]
theorem abs_fin (x : ℝ) : FloatVal.abs (fin x) = fin |x| := rfl

@[simp]
theorem pow_fin (x : ℝ) (n : ℕ) : pow (fin x) n = fin (x ^ n) := by
  induction n with
  | zero => simp [pow]
  | succ n ih =>
    show mul (fin x) (pow (fin x) n) = fin (x ^ (n + 1))
    rw [ih]
    show fin (x * x ^ n) = fin (x ^ (n + 1))
    rw [pow_succ, mul_comm]

theorem log_fin (x : ℝ) (hx : 0 < x) : log (fin x) = fin (Real.log x) := by
  simp [log, not_lt.mpr hx.le, hx.ne.symm]

end FloatVal

/-! ## CosTheta -/

/-- The argument of the square root in `CosTheta` is never negative. -/
theorem cosTheta_radicand_nonneg (m t : ℝ) : 0 ≤ m ^ 2 * (m ^ 2 + t ^ 2) := by
  positivity

/-- On finite arguments `CosTheta` divides the real numerator by the real
denominator, with the division of `FloatVal`. -/
theorem CosTheta_fin (invMass pz P1p P2p P1m P2m SystempT : ℝ) :
    CosTheta (fin invMass) (fin pz) (fin P1p) (fin P2p) (fin P1m) (fin P2m) (fin SystempT)
      = fin (2 * (P1p * P2m - P1m * P2p) * pz)
          / fin (Real.sqrt (invMass ^ 2 * (invMass ^ 2 + SystempT ^ 2)) * |pz|) := by
  unfold CosTheta
  simp only [pow_fin, fin_mul_fin, fin_add_fin, fin_sub_fin, abs_fin]
  rw [sqrt_fin _ (cosTheta_radicand_nonneg invMass SystempT), fin_mul_fin]

/-- C1: for all arguments `CosTheta` is the quotient of
`2*(P1p*P2m - P1m*P2p)*pz` by `sqrt(invMass^2*(invMass^2 + SystempT^2))*|pz|`,
computed from its seven arguments alone.  On finite arguments numerator and
denominator are the real expressions (with the real absolute value of `pz`),
and when the denominator is not zero the result is their real quotient. -/
theorem CosTheta_spec :
    (∀ invMass pz P1p P2p P1m P2m SystempT : FloatVal,
      CosTheta invMass pz P1p P2p P1m P2m SystempT
        = (fin 2 * (P1p * P2m - P1m * P2p) * pz)
            / (sqrt (pow invMass 2 * (pow invMass 2 + pow SystempT 2)) * FloatVal.abs pz))
    ∧ (∀ invMass pz P1p P2p P1m P2m SystempT : ℝ,
      CosTheta (fin invMass) (fin pz) (fin P1p) (fin P2p) (fin P1m) (fin P2m) (fin SystempT)
        = fin (2 * (P1p * P2m - P1m * P2p) * pz)
            / fin (Real.sqrt (invMass ^ 2 * (invMass ^ 2 + SystempT ^ 2)) * |pz|))
    ∧ (∀ invMass pz P1p P2p P1m P2m SystempT : ℝ,
      Real.sqrt (invMass ^ 2 * (invMass ^ 2 + SystempT ^ 2)) * |pz| ≠ 0 →
      CosTheta (fin invMass) (fin pz) (fin P1p) (fin P2p) (fin P1m) (fin P2m) (fin SystempT)
        = fin (2 * (P1p * P2m - P1m * P2p) * pz
            / (Real.sqrt (invMass ^ 2 * (invMass ^ 2 + SystempT ^ 2)) * |pz|))) := by
  refine ⟨fun _ _ _ _ _ _ _ => rfl, CosTheta_fin, ?_⟩
  intro invMass pz P1p P2p P1m P2m SystempT hden
  rw [CosTheta_fin, fin_div_fin _ _ hden]

/-- Witness for C1: `CosTheta(1, 2, 1, 0, 0, 1, 0) = 4 / 2 = 2`. -/
theorem CosTheta_spec_witness :
    CosTheta (fin 1) (fin 2) (fin 1) (fin 0) (fin 0) (fin 1) (fin 0) = fin 2 := by
  have hden : Real.sqrt ((1 : ℝ) ^ 2 * (1 ^ 2 + 0 ^ 2)) * |(2 : ℝ)| ≠ 0 := by
    norm_num
  rw [CosTheta_spec.2.2 1 2 1 0 0 1 0 hden]
  norm_num

/-! ## Pair functions and light-cone components -/

/-- The component-wise sum of two four-vectors does not depend on their order. -/
theorem PtEtaPhiMVector.add_comm_vec (p q : PtEtaPhiMVector) : p + q = q + p := by
  show PtEtaPhiMVector.add p q = PtEtaPhiMVector.add q p
  simp [PtEtaPhiMVector.add, add_comm]

/-- C2: each of the four pair functions is symmetric in its two arguments. -/
theorem pair_functions_comm (p1 p2 : PtEtaPhiMVector) :
    invMass p1 p2 = invMass p2 p1
    ∧ Rapidity p1 p2 = Rapidity p2 p1
    ∧ pz p1 p2 = pz p2 p1
    ∧ SystempT p1 p2 = SystempT p2 p1 := by
  simp only [invMass, Rapidity, pz, SystempT, PtEtaPhiMVector.add_comm_vec p1 p2, and_self]

/-- The C call `sqrt(2)` returns the real square root of two. -/
theorem sqrt_two_fin : sqrt (fin 2) = fin (Real.sqrt 2) :=
  sqrt_fin 2 (by norm_num)

/-- The real square root of two is not zero. -/
theorem sqrt_two_ne_zero : Real.sqrt 2 ≠ 0 :=
  (Real.sqrt_pos.mpr (by norm_num)).ne.symm

/-- Sum and difference of the two light-cone components of a real pair. -/
theorem lightCone_real (e z : ℝ) :
    (e + z) / Real.sqrt 2 + (e - z) / Real.sqrt 2 = Real.sqrt 2 * e
    ∧ (e + z) / Real.sqrt 2 - (e - z) / Real.sqrt 2 = Real.sqrt 2 * z := by
  have h2 : Real.sqrt 2 * Real.sqrt 2 = 2 := Real.mul_self_sqrt (by norm_num)
  have hne := sqrt_two_ne_zero
  constructor
  · field_simp
    linear_combination (-e) * h2
  · field_simp
    linear_combination (-z) * h2

/-- C4: for every four-vector the plus and minus light-cone components add up
to `sqrt(2) * E` and differ by `sqrt(2) * Pz`, for the `P1` pair and for the
`P2` pair. -/
theorem lightCone_identity (v : PtEtaPhiMVector) :
    P1p v + P1m v = sqrt (fin 2) * v.E
    ∧ P1p v - P1m v = sqrt (fin 2) * v.Pz
    ∧ P2p v + P2m v = sqrt (fin 2) * v.E
    ∧ P2p v - P2m v = sqrt (fin 2) * v.Pz := by
  have hs := lightCone_real v.e v.pz
  simp only [P1p, P1m, P2p, P2m, PtEtaPhiMVector.E, PtEtaPhiMVector.Pz, sqrt_two_fin,
    fin_add_fin, fin_sub_fin, fin_div_fin _ _ sqrt_two_ne_zero, fin_mul_fin, hs.1, hs.2,
    and_self]

/-! ## Invariant mass -/

namespace PtEtaPhiMVector

@[simp]
theorem add_px (p q : PtEtaPhiMVector) : (p + q).px = p.px + q.px := rfl

@[simp]
theorem add_py (p q : PtEtaPhiMVector) : (p + q).py = p.py + q.py := rfl

@[simp]
theorem add_pz (p q : PtEtaPhiMVector) : (p + q).pz = p.pz + q.pz := rfl

@[simp]
theorem add_e (p q : PtEtaPhiMVector) : (p + q).e = p.e + q.e := rfl

/-- The magnitude of a vector that is not spacelike is the real square root of
`E^2 - |p|^2`. -/
theorem M_of_nonneg (v : PtEtaPhiMVector)
    (hv : 0 ≤ v.e ^ 2 - (v.px ^ 2 + v.py ^ 2 + v.pz ^ 2)) :
    v.M = fin (Real.sqrt (v.e ^ 2 - (v.px ^ 2 + v.py ^ 2 + v.pz ^ 2))) := by
  have hrw : v.e * v.e - (v.px * v.px + v.py * v.py + v.pz * v.pz)
      = v.e ^ 2 - (v.px ^ 2 + v.py ^ 2 + v.pz ^ 2) := by ring
  simp only [M, E, Px, Py, Pz, fin_mul_fin, fin_add_fin, fin_sub_fin, hrw]
  exact sqrt_fin _ hv

/-- A vector built from `(pt, eta, phi, mass)` has non-negative energy. -/
theorem ofPtEtaPhiM_e_nonneg (pt eta phi mass : ℝ) :
    0 ≤ (ofPtEtaPhiM pt eta phi mass).e :=
  Real.sqrt_nonneg _

/-- A vector built from `(pt, eta, phi, mass)` satisfies `E^2 = |p|^2 + mass^2`. -/
theorem ofPtEtaPhiM_e_sq (pt eta phi mass : ℝ) :
    (ofPtEtaPhiM pt eta phi mass).e ^ 2
      = (ofPtEtaPhiM pt eta phi mass).px ^ 2 + (ofPtEtaPhiM pt eta phi mass).py ^ 2
        + (ofPtEtaPhiM pt eta phi mass).pz ^ 2 + mass ^ 2 := by
  have hcs : Real.cos phi ^ 2 + Real.sin phi ^ 2 = 1 := Real.cos_sq_add_sin_sq phi
  have hch : Real.cosh eta ^ 2 = Real.sinh eta ^ 2 + 1 := Real.cosh_sq eta
  show Real.sqrt ((pt * Real.cosh eta) ^ 2 + mass ^ 2) ^ 2
      = (pt * Real.cos phi) ^ 2 + (pt * Real.sin phi) ^ 2 + (pt * Real.sinh eta) ^ 2 + mass ^ 2
  rw [Real.sq_sqrt (by positivity)]
  linear_combination pt ^ 2 * hch - pt ^ 2 * hcs

end PtEtaPhiMVector

/-- The sum of two four-vectors that are each not spacelike and of non-negative
energy is not spacelike. -/
theorem sum_not_spacelike (p q : PtEtaPhiMVector) (hpe : 0 ≤ p.e) (hqe : 0 ≤ q.e)
    (hp : p.px ^ 2 + p.py ^ 2 + p.pz ^ 2 ≤ p.e ^ 2)
    (hq : q.px ^ 2 + q.py ^ 2 + q.pz ^ 2 ≤ q.e ^ 2) :
    0 ≤ (p + q).e ^ 2 - ((p + q).px ^ 2 + (p + q).py ^ 2 + (p + q).pz ^ 2) := by
  have hcs : (p.px * q.px + p.py * q.py + p.pz * q.pz) ^ 2
      ≤ (p.px ^ 2 + p.py ^ 2 + p.pz ^ 2) * (q.px ^ 2 + q.py ^ 2 + q.pz ^ 2) := by
    nlinarith [sq_nonneg (p.px * q.py - p.py * q.px), sq_nonneg (p.px * q.pz - p.pz * q.px),
      sq_nonneg (p.py * q.pz - p.pz * q.py)]
  have hprod : (p.px ^ 2 + p.py ^ 2 + p.pz ^ 2) * (q.px ^ 2 + q.py ^ 2 + q.pz ^ 2)
      ≤ p.e ^ 2 * q.e ^ 2 :=
    mul_le_mul hp hq (by positivity) (by positivity)
  have hsq : (p.px * q.px + p.py * q.py + p.pz * q.pz) ^ 2 ≤ (p.e * q.e) ^ 2 := by
    rw [mul_pow]
    exact hcs.trans hprod
  have hdot : p.px * q.px + p.py * q.py + p.pz * q.pz ≤ p.e * q.e :=
    (abs_le_of_sq_le_sq' hsq (mul_nonneg hpe hqe)).2
  simp only [PtEtaPhiMVector.add_px, PtEtaPhiMVector.add_py, PtEtaPhiMVector.add_pz,
    PtEtaPhiMVector.add_e]
  nlinarith [hdot, hp, hq]

/-- C5: for two vectors built from physical inputs (`pt >= 0`, `mass >= 0`),
with `E` the sum of the energies and `p` the component-wise sum of the
momenta, `E^2 - |p|^2 >= 0`, `invMass` is the real square root of it, and that
value is non-negative. -/
theorem invMass_physical (pt1 eta1 phi1 m1 pt2 eta2 phi2 m2 : ℝ)
    (_hpt1 : 0 ≤ pt1) (_hm1 : 0 ≤ m1) (_hpt2 : 0 ≤ pt2) (_hm2 : 0 ≤ m2) :
    0 ≤ ((Vector pt1 eta1 phi1 m1).e + (Vector pt2 eta2 phi2 m2).e) ^ 2
        - (((Vector pt1 eta1 phi1 m1).px + (Vector pt2 eta2 phi2 m2).px) ^ 2
          + ((Vector pt1 eta1 phi1 m1).py + (Vector pt2 eta2 phi2 m2).py) ^ 2
          + ((Vector pt1 eta1 phi1 m1).pz + (Vector pt2 eta2 phi2 m2).pz) ^ 2)
    ∧ invMass (Vector pt1 eta1 phi1 m1) (Vector pt2 eta2 phi2 m2)
        = fin (Real.sqrt
            (((Vector pt1 eta1 phi1 m1).e + (Vector pt2 eta2 phi2 m2).e) ^ 2
              - (((Vector pt1 eta1 phi1 m1).px + (Vector pt2 eta2 phi2 m2).px) ^ 2
                + ((Vector pt1 eta1 phi1 m1).py + (Vector pt2 eta2 phi2 m2).py) ^ 2
                + ((Vector pt1 eta1 phi1 m1).pz + (Vector pt2 eta2 phi2 m2).pz) ^ 2)))
    ∧ 0 ≤ Real.sqrt
            (((Vector pt1 eta1 phi1 m1).e + (Vector pt2 eta2 phi2 m2).e) ^ 2
              - (((Vector pt1 eta1 phi1 m1).px + (Vector pt2 eta2 phi2 m2).px) ^ 2
                + ((Vector pt1 eta1 phi1 m1).py + (Vector pt2 eta2 phi2 m2).py) ^ 2
                + ((Vector pt1 eta1 phi1 m1).pz + (Vector pt2 eta2 phi2 m2).pz) ^ 2)) := by
  have h1 := PtEtaPhiMVector.ofPtEtaPhiM_e_sq pt1 eta1 phi1 m1
  have h2 := PtEtaPhiMVector.ofPtEtaPhiM_e_sq pt2 eta2 phi2 m2
  have hsum := sum_not_spacelike (Vector pt1 eta1 phi1 m1) (Vector pt2 eta2 phi2 m2)
    (PtEtaPhiMVector.ofPtEtaPhiM_e_nonneg _ _ _ _) (PtEtaPhiMVector.ofPtEtaPhiM_e_nonneg _ _ _ _)
    (by show _ ≤ (PtEtaPhiMVector.ofPtEtaPhiM pt1 eta1 phi1 m1).e ^ 2
        rw [h1]; exact le_add_of_nonneg_right (sq_nonneg m1))
    (by show _ ≤ (PtEtaPhiMVector.ofPtEtaPhiM pt2 eta2 phi2 m2).e ^ 2
        rw [h2]; exact le_add_of_nonneg_right (sq_nonneg m2))
  exact ⟨hsum, PtEtaPhiMVector.M_of_nonneg _ hsum, Real.sqrt_nonneg _⟩

/-- Witness for C5: the muon pair of the spec's end-to-end scenario has a
non-negative real invariant mass. -/
theorem invMass_physical_witness :
    ∃ r : ℝ, 0 ≤ r
      ∧ invMass (Vector 30 0.5 0 0.1057) (Vector 25 (-0.3) 3 0.1057) = fin r :=
  ⟨_, (invMass_physical 30 0.5 0 0.1057 25 (-0.3) 3 0.1057
        (by norm_num) (by norm_num) (by norm_num) (by norm_num)).2.2,
      (invMass_physical 30 0.5 0 0.1057 25 (-0.3) 3 0.1057
        (by norm_num) (by norm_num) (by norm_num) (by norm_num)).2.1⟩

/-! ## Angular weights -/

/-- On finite arguments `wD` divides `0.5 * c^2` by `(1 + c^2 + h)^3`. -/
theorem wD_fin (c hv : ℝ) :
    wD (fin c) (fin hv) = fin (0.5 * c ^ 2) / fin ((1 + c ^ 2 + hv) ^ 3) := by
  simp only [wD, pow_fin, fin_mul_fin, fin_add_fin]

/-- On finite arguments `wN` divides `0.5 * |c|` by `(1 + c^2 + h)^2`. -/
theorem wN_fin (c hv : ℝ) :
    wN (fin c) (fin hv) = fin (0.5 * |c|) / fin ((1 + c ^ 2 + hv) ^ 2) := by
  simp only [wN, pow_fin, abs_fin, fin_mul_fin, fin_add_fin]

/-- Counterexample to C6 as stated: at `h = -1` both weights of `cosTheta = 0`
are `0 / 0`, which is NaN and not zero. -/
theorem weights_zero_at_minus_one :
    wD (fin 0) (fin (-1)) = nan ∧ wN (fin 0) (fin (-1)) = nan
    ∧ wD (fin 0) (fin (-1)) ≠ fin 0 ∧ wN (fin 0) (fin (-1)) ≠ fin 0 := by
  have hD : wD (fin 0) (fin (-1)) = nan := by
    rw [wD_fin]
    norm_num [fin_div_zero]
  have hN : wN (fin 0) (fin (-1)) = nan := by
    rw [wN_fin]
    norm_num [fin_div_zero]
  refine ⟨hD, hN, ?_, ?_⟩
  · rw [hD]; exact fun hc => FloatVal.noConfusion hc
  · rw [hN]; exact fun hc => FloatVal.noConfusion hc

/-- C6 (amended): for every value of `h` other than `-1` and NaN, the two
infinities included, `wD(0, h) = 0` and `wN(0, h) = 0`. -/
theorem weights_zero_of_cosTheta_zero (hv : FloatVal) (hne : hv ≠ fin (-1)) (hnan : hv ≠ nan) :
    wD (fin 0) hv = fin 0 ∧ wN (fin 0) hv = fin 0 := by
  cases hv with
  | fin x =>
    have hx : 1 + (0 : ℝ) ^ 2 + x ≠ 0 := by
      intro hc
      apply hne
      congr 1
      linarith
    rw [wD_fin, wN_fin, fin_div_fin _ _ (pow_ne_zero 3 hx), fin_div_fin _ _ (pow_ne_zero 2 hx)]
    norm_num
  | pinf =>
    constructor
    · show div (mul (fin 0.5) (pow (fin 0) 2)) (pow (add (add (fin 1) (pow (fin 0) 2)) pinf) 3)
        = fin 0
      simp [pow, mul, add, infTimes, div]
    · show div (mul (fin 0.5) (FloatVal.abs (fin 0))) (pow (add (add (fin 1) (pow (fin 0) 2)) pinf) 2)
        = fin 0
      simp [pow, mul, add, infTimes, div, FloatVal.abs]
  | ninf =>
    constructor
    · show div (mul (fin 0.5) (pow (fin 0) 2)) (pow (add (add (fin 1) (pow (fin 0) 2)) ninf) 3)
        = fin 0
      simp [pow, mul, add, infTimes, div]
    · show div (mul (fin 0.5) (FloatVal.abs (fin 0))) (pow (add (add (fin 1) (pow (fin 0) 2)) ninf) 2)
        = fin 0
      simp [pow, mul, add, infTimes, div, FloatVal.abs]
  | nan => exact absurd rfl hnan

/-- Witness for C6 (amended): at `h = 0.05`, the value of `h(0)`. -/
theorem weights_zero_of_cosTheta_zero_witness :
    wD (fin 0) (fin 0.05) = fin 0 ∧ wN (fin 0) (fin 0.05) = fin 0 :=
  weights_zero_of_cosTheta_zero (fin 0.05)
    (fun hc => by
      have hx : (0.05 : ℝ) = -1 := FloatVal.fin.inj hc
      norm_num at hx)
    (fun hc => FloatVal.noConfusion hc)

/-- C7: `h(c) = 0.5 * A0 * (1 - 3*c^2)` with `A0 = 0.1`, that is
`0.05 * (1 - 3*c^2)`, and `h(0) = 0.05`. -/
theorem h_spec :
    (∀ c : FloatVal, h c = fin 0.5 * fin 0.1 * (fin 1 - fin 3 * pow c 2))
    ∧ (∀ c : ℝ, h (fin c) = fin (0.5 * 0.1 * (1 - 3 * c ^ 2)))
    ∧ (∀ c : ℝ, h (fin c) = fin (0.05 * (1 - 3 * c ^ 2)))
    ∧ h (fin 0) = fin 0.05 := by
  have hfin : ∀ c : ℝ, h (fin c) = fin (0.5 * 0.1 * (1 - 3 * c ^ 2)) := by
    intro c
    simp only [h, pow_fin, fin_mul_fin, fin_sub_fin]
  refine ⟨fun _ => rfl, hfin, ?_, ?_⟩
  · intro c
    rw [hfin]
    norm_num
  · rw [hfin]
    norm_num

/-- C8: `wD(c, h) = 0.5 * c^2 / (1 + c^2 + h)^3`; on finite arguments with a
non-zero denominator this is the real quotient. -/
theorem wD_spec :
    (∀ c hv : FloatVal, wD c hv = fin 0.5 * pow c 2 / pow (fin 1 + pow c 2 + hv) 3)
    ∧ (∀ c hv : ℝ, wD (fin c) (fin hv) = fin (0.5 * c ^ 2) / fin ((1 + c ^ 2 + hv) ^ 3))
    ∧ (∀ c hv : ℝ, 1 + c ^ 2 + hv ≠ 0 →
        wD (fin c) (fin hv) = fin (0.5 * c ^ 2 / (1 + c ^ 2 + hv) ^ 3)) := by
  refine ⟨fun _ _ => rfl, wD_fin, ?_⟩
  intro c hv hden
  rw [wD_fin, fin_div_fin _ _ (pow_ne_zero 3 hden)]

/-- Witness for C8: `wD(1, 0) = 0.5 / 8`. -/
theorem wD_spec_witness : wD (fin 1) (fin 0) = fin (1 / 16) := by
  rw [wD_spec.2.2 1 0 (by norm_num)]
  norm_num

/-- C9: `wN(c, h) = 0.5 * |c| / (1 + c^2 + h)^2` with the real absolute value
of `c`; on finite arguments with a non-zero denominator this is the real
quotient. -/
theorem wN_spec :
    (∀ c hv : FloatVal, wN c hv = fin 0.5 * FloatVal.abs c / pow (fin 1 + pow c 2 + hv) 2)
    ∧ (∀ c hv : ℝ, wN (fin c) (fin hv) = fin (0.5 * |c|) / fin ((1 + c ^ 2 + hv) ^ 2))
    ∧ (∀ c hv : ℝ, 1 + c ^ 2 + hv ≠ 0 →
        wN (fin c) (fin hv) = fin (0.5 * |c| / (1 + c ^ 2 + hv) ^ 2)) := by
  refine ⟨fun _ _ => rfl, wN_fin, ?_⟩
  intro c hv hden
  rw [wN_fin, fin_div_fin _ _ (pow_ne_zero 2 hden)]

/-- Witness for C9: `wN(-1, 0) = 0.5 * 1 / 4`. -/
theorem wN_spec_witness : wN (fin (-1)) (fin 0) = fin (1 / 8) := by
  rw [wN_spec.2.2 (-1) 0 (by norm_num)]
  norm_num

/-! ## Rapidity -/

/-- C10: when the summed vector has `E > |pz|`, with `E = E(p1) + E(p2)` and
`pz = Pz(p1) + Pz(p2)`, `Rapidity(p1, p2) = 0.5 * ln((E + pz) / (E - pz))`. -/
theorem Rapidity_spec (p1 p2 : PtEtaPhiMVector) (hE : |p1.pz + p2.pz| < p1.e + p2.e) :
    Rapidity p1 p2
      = fin (0.5 * Real.log
          ((p1.e + p2.e + (p1.pz + p2.pz)) / (p1.e + p2.e - (p1.pz + p2.pz)))) := by
  obtain ⟨hlo, hhi⟩ := abs_lt.mp hE
  have hminus : 0 < p1.e + p2.e - (p1.pz + p2.pz) := by linarith
  have hplus : 0 < p1.e + p2.e + (p1.pz + p2.pz) := by linarith
  simp only [Rapidity, PtEtaPhiMVector.Rapidity, PtEtaPhiMVector.E, PtEtaPhiMVector.Pz,
    PtEtaPhiMVector.add_e, PtEtaPhiMVector.add_pz, fin_add_fin, fin_sub_fin]
  rw [fin_div_fin _ _ hminus.ne.symm, log_fin _ (div_pos hplus hminus), fin_mul_fin]

/-- Witness for C10: two vectors at rest, `E = 2`, `pz = 0`, rapidity `0`. -/
theorem Rapidity_spec_witness :
    Rapidity ⟨0, 0, 0, 1, fin 0⟩ ⟨0, 0, 0, 1, fin 0⟩ = fin 0 := by
  rw [Rapidity_spec ⟨0, 0, 0, 1, fin 0⟩ ⟨0, 0, 0, 1, fin 0⟩ (by norm_num)]
  norm_num

/-! ## Transverse momentum, light-cone formulas, construction -/

/-- The transverse momentum accessor is the real square root of `px^2 + py^2`. -/
theorem PtEtaPhiMVector.Pt_eq (v : PtEtaPhiMVector) :
    v.Pt = fin (Real.sqrt (v.px ^ 2 + v.py ^ 2)) := by
  have hrw : v.px * v.px + v.py * v.py = v.px ^ 2 + v.py ^ 2 := by ring
  simp only [PtEtaPhiMVector.Pt, PtEtaPhiMVector.Px, PtEtaPhiMVector.Py, fin_mul_fin,
    fin_add_fin, hrw]
  exact sqrt_fin _ (by positivity)

/-- C11: `SystempT(p1, p2)` is `sqrt(px^2 + py^2)` of the component-wise sum,
and that value is non-negative. -/
theorem SystempT_spec (p1 p2 : PtEtaPhiMVector) :
    SystempT p1 p2 = fin (Real.sqrt ((p1.px + p2.px) ^ 2 + (p1.py + p2.py) ^ 2))
    ∧ 0 ≤ Real.sqrt ((p1.px + p2.px) ^ 2 + (p1.py + p2.py) ^ 2) :=
  ⟨PtEtaPhiMVector.Pt_eq (p1 + p2), Real.sqrt_nonneg _⟩

/-- C12: `P1p` and `P2p` both return `(E + Pz)/sqrt(2)`, `P1m` and `P2m` both
return `(E - Pz)/sqrt(2)`; the two plus functions are the same function and so
are the two minus functions. -/
theorem lightCone_formulas :
    (∀ v : PtEtaPhiMVector,
      P1p v = fin ((v.e + v.pz) / Real.sqrt 2) ∧ P2p v = fin ((v.e + v.pz) / Real.sqrt 2)
      ∧ P1m v = fin ((v.e - v.pz) / Real.sqrt 2) ∧ P2m v = fin ((v.e - v.pz) / Real.sqrt 2))
    ∧ P1p = P2p ∧ P1m = P2m := by
  refine ⟨fun v => ?_, rfl, rfl⟩
  simp only [P1p, P1m, P2p, P2m, PtEtaPhiMVector.E, PtEtaPhiMVector.Pz, sqrt_two_fin,
    fin_add_fin, fin_sub_fin, fin_div_fin _ _ sqrt_two_ne_zero, and_self]

/-- C13: the vector returned by `Vector(pt, eta, phi, mass)` has transverse
momentum `pt` for every valid transverse momentum `pt >= 0`, and pseudorapidity
`eta` for every input. -/
theorem Vector_accessors (pt eta phi mass : ℝ) :
    (0 ≤ pt → (Vector pt eta phi mass).Pt = fin pt)
    ∧ (Vector pt eta phi mass).Eta = fin eta := by
  have hcs : Real.cos phi ^ 2 + Real.sin phi ^ 2 = 1 := Real.cos_sq_add_sin_sq phi
  have hsq : (pt * Real.cos phi) ^ 2 + (pt * Real.sin phi) ^ 2 = pt ^ 2 := by
    linear_combination pt ^ 2 * hcs
  refine ⟨fun hpt => ?_, rfl⟩
  rw [PtEtaPhiMVector.Pt_eq]
  show fin (Real.sqrt ((pt * Real.cos phi) ^ 2 + (pt * Real.sin phi) ^ 2)) = fin pt
  rw [hsq, Real.sqrt_sq hpt]

/-- Witness for C13: the first muon of the spec's end-to-end scenario. -/
theorem Vector_accessors_witness :
    (Vector 30 0.5 0 0.1057).Pt = fin 30 ∧ (Vector 30 0.5 0 0.1057).Eta = fin 0.5 :=
  ⟨(Vector_accessors 30 0.5 0 0.1057).1 (by norm_num),
    (Vector_accessors 30 0.5 0 0.1057).2⟩

/-! ## CosTheta at zero longitudinal momentum -/

/-- Any value times a finite zero is zero or NaN. -/
theorem FloatVal.mul_fin_zero (X : FloatVal) : X * fin 0 = fin 0 ∨ X * fin 0 = nan := by
  cases X with
  | fin x => left; show fin (x * 0) = fin 0; rw [mul_zero]
  | pinf => right; show infTimes 0 true = nan; simp [infTimes]
  | ninf => right; show infTimes 0 false = nan; simp [infTimes]
  | nan => right; rfl

/-- A quotient whose dividend and divisor are each zero or NaN is NaN. -/
theorem FloatVal.zero_or_nan_div (Y Z : FloatVal) (hY : Y = fin 0 ∨ Y = nan)
    (hZ : Z = fin 0 ∨ Z = nan) : Y / Z = nan := by
  rcases hY with hY | hY <;> rcases hZ with hZ | hZ <;> subst hY <;> subst hZ
  · show div (fin 0) (fin 0) = nan
    simp [div]
  · rfl
  · rfl
  · rfl

/-- C14: with `pz = 0` and any other six arguments `CosTheta` still performs
its division and returns NaN as a value; for finite arguments the numerator
and the denominator are both zero. -/
theorem CosTheta_pz_zero :
    (∀ invMass P1p P2p P1m P2m SystempT : FloatVal,
      CosTheta invMass (fin 0) P1p P2p P1m P2m SystempT = nan)
    ∧ (∀ invMass P1p P2p P1m P2m SystempT : ℝ,
      fin 2 * (fin P1p * fin P2m - fin P1m * fin P2p) * fin 0 = fin 0
      ∧ sqrt (pow (fin invMass) 2 * (pow (fin invMass) 2 + pow (fin SystempT) 2))
          * FloatVal.abs (fin 0) = fin 0) := by
  constructor
  · intro invMass P1p P2p P1m P2m SystempT
    have habs : FloatVal.abs (fin 0) = fin 0 := by rw [abs_fin, abs_zero]
    have hden := FloatVal.mul_fin_zero
      (sqrt (pow invMass 2 * (pow invMass 2 + pow SystempT 2)))
    unfold CosTheta
    rw [habs]
    exact FloatVal.zero_or_nan_div _ _ (FloatVal.mul_fin_zero _) hden
  · intro invMass P1p P2p P1m P2m SystempT
    simp only [pow_fin, fin_mul_fin, fin_add_fin, fin_sub_fin, abs_fin,
      sqrt_fin _ (cosTheta_radicand_nonneg invMass SystempT), mul_zero, abs_zero, and_self]

/-! ## Weights evaluated at `h(c)` -/

/-- On a finite argument `h` returns the finite value `0.05 * (1 - 3*c^2)`. -/
theorem h_fin (c : ℝ) : h (fin c) = fin (0.05 * (1 - 3 * c ^ 2)) := by
  simp only [h, pow_fin, fin_mul_fin, fin_sub_fin]
  norm_num

/-- The base of the weights' denominators at `h(c)` is `1.05 + 0.85*c^2`. -/
theorem weight_base_fin (c : ℝ) :
    fin 1 + pow (fin c) 2 + h (fin c) = fin (1.05 + 0.85 * c ^ 2) := by
  rw [h_fin, pow_fin, fin_add_fin, fin_add_fin]
  congr 1
  ring

/-- In exact arithmetic, with `h(c)` as second argument the base
`1 + c^2 + h(c)` of both denominators is `1.05 + 0.85*c^2 >= 1.05 > 0`;
`wD(c, h(c))` and `wN(c, h(c))` are finite real quotients, both are
non-negative, and each quotient is zero exactly when `c = 0`. -/
theorem weights_at_h_exact (c : ℝ) :
    fin 1 + pow (fin c) 2 + h (fin c) = fin (1.05 + 0.85 * c ^ 2)
    ∧ (1.05 : ℝ) ≤ 1.05 + 0.85 * c ^ 2
    ∧ wD (fin c) (h (fin c)) = fin (0.5 * c ^ 2 / (1.05 + 0.85 * c ^ 2) ^ 3)
    ∧ wN (fin c) (h (fin c)) = fin (0.5 * |c| / (1.05 + 0.85 * c ^ 2) ^ 2)
    ∧ 0 ≤ 0.5 * c ^ 2 / (1.05 + 0.85 * c ^ 2) ^ 3
    ∧ 0 ≤ 0.5 * |c| / (1.05 + 0.85 * c ^ 2) ^ 2
    ∧ (wD (fin c) (h (fin c)) = fin 0 ↔ c = 0)
    ∧ (wN (fin c) (h (fin c)) = fin 0 ↔ c = 0) := by
  have hbase : (0 : ℝ) < 1.05 + 0.85 * c ^ 2 := by positivity
  have hD : wD (fin c) (h (fin c)) = fin (0.5 * c ^ 2 / (1.05 + 0.85 * c ^ 2) ^ 3) := by
    unfold wD
    rw [weight_base_fin, pow_fin, pow_fin, fin_mul_fin,
      fin_div_fin _ _ (pow_ne_zero 3 hbase.ne.symm)]
  have hN : wN (fin c) (h (fin c)) = fin (0.5 * |c| / (1.05 + 0.85 * c ^ 2) ^ 2) := by
    unfold wN
    rw [weight_base_fin, pow_fin, abs_fin, fin_mul_fin,
      fin_div_fin _ _ (pow_ne_zero 2 hbase.ne.symm)]
  refine ⟨weight_base_fin c, by nlinarith [sq_nonneg c], hD, hN, by positivity, by positivity,
    ?_, ?_⟩
  · rw [hD]
    constructor
    · intro hz
      have hq : 0.5 * c ^ 2 / (1.05 + 0.85 * c ^ 2) ^ 3 = 0 := FloatVal.fin.inj hz
      rcases div_eq_zero_iff.mp hq with hnum | hden
      · exact (pow_eq_zero_iff two_ne_zero).mp (by linarith : c ^ 2 = 0)
      · exact absurd hden (pow_ne_zero 3 hbase.ne.symm)
    · intro hc
      rw [hc]
      norm_num
  · rw [hN]
    constructor
    · intro hz
      have hq : 0.5 * |c| / (1.05 + 0.85 * c ^ 2) ^ 2 = 0 := FloatVal.fin.inj hz
      rcases div_eq_zero_iff.mp hq with hnum | hden
      · exact abs_eq_zero.mp (by linarith)
      · exact absurd hden (pow_ne_zero 2 hbase.ne.symm)
    · intro hc
      rw [hc]
      norm_num

/-! ## Dependence of CosTheta on the sign of `pz` -/

/-- A common positive factor of dividend and divisor cancels, also when the
divisor is zero. -/
theorem FloatVal.div_scale_pos (n d k : ℝ) (hk : 0 < k) :
    fin (n * k) / fin (d * k) = fin n / fin d := by
  by_cases hd : d = 0
  · subst hd
    rw [zero_mul, fin_div_zero, fin_div_zero]
    have h0 : n * k = 0 ↔ n = 0 := by
      constructor
      · intro hz
        rcases mul_eq_zero.mp hz with hn | hk0
        · exact hn
        · exact absurd hk0 hk.ne.symm
      · intro hn
        rw [hn, zero_mul]
    have hpos : 0 < n * k ↔ 0 < n := by
      constructor
      · intro hp
        by_contra hn
        have : n * k ≤ 0 := mul_nonpos_of_nonpos_of_nonneg (not_lt.mp hn) hk.le
        linarith
      · intro hn
        exact mul_pos hn hk
    simp only [h0, hpos]
  · rw [fin_div_fin _ _ (mul_ne_zero hd hk.ne.symm), fin_div_fin _ _ hd,
      mul_div_mul_right _ _ hk.ne.symm]

/-- Negating a finite dividend negates the quotient, also when the divisor is
zero. -/
theorem FloatVal.neg_fin_div (n d : ℝ) : fin (-n) / fin d = -(fin n / fin d) := by
  by_cases hd : d = 0
  · subst hd
    rw [fin_div_zero, fin_div_zero]
    rcases lt_trichotomy n 0 with hn | hn | hn
    · have h1 : ¬ n = 0 := hn.ne
      have h2 : ¬ 0 < n := not_lt.mpr hn.le
      have h3 : ¬ -n = 0 := fun hc => h1 (neg_eq_zero.mp hc)
      have h4 : 0 < -n := neg_pos.mpr hn
      simp only [h1, h2, h3, h4, if_true, if_false]
      rfl
    · subst hn
      simp only [neg_zero, if_true]
      rfl
    · have h1 : ¬ n = 0 := hn.ne.symm
      have h3 : ¬ -n = 0 := fun hc => h1 (neg_eq_zero.mp hc)
      have h4 : ¬ 0 < -n := by
        intro hc
        linarith [neg_pos.mp hc]
      simp only [h1, hn, h3, h4, if_true, if_false]
      rfl
  · rw [fin_div_fin _ _ hd, fin_div_fin _ _ hd, neg_div]
    rfl

/-- On finite arguments with `pz` not zero, `CosTheta` is the quotient of
`sign(pz) * 2*(P1p*P2m - P1m*P2p)` by the square root alone. -/
theorem CosTheta_fin_sign (invMass pz P1p P2p P1m P2m SystempT : ℝ) (hpz : pz ≠ 0) :
    CosTheta (fin invMass) (fin pz) (fin P1p) (fin P2p) (fin P1m) (fin P2m) (fin SystempT)
      = fin (Real.sign pz * (2 * (P1p * P2m - P1m * P2p)))
          / fin (Real.sqrt (invMass ^ 2 * (invMass ^ 2 + SystempT ^ 2))) := by
  rw [CosTheta_fin]
  rcases lt_or_gt_of_ne hpz with hneg | hpos
  · have hk : 0 < -pz := neg_pos.mpr hneg
    have hnum : 2 * (P1p * P2m - P1m * P2p) * pz
        = (Real.sign pz * (2 * (P1p * P2m - P1m * P2p))) * (-pz) := by
      rw [Real.sign_of_neg hneg]
      ring
    rw [abs_of_neg hneg, hnum, FloatVal.div_scale_pos _ _ _ hk]
  · have hnum : 2 * (P1p * P2m - P1m * P2p) * pz
        = (Real.sign pz * (2 * (P1p * P2m - P1m * P2p))) * pz := by
      rw [Real.sign_of_pos hpos]
      ring
    rw [abs_of_pos hpos, hnum, FloatVal.div_scale_pos _ _ _ hpos]

/-- C18 (amended): for finite arguments with `pz` not zero, `CosTheta` equals
`sign(pz) * 2*(P1p*P2m - P1m*P2p) / sqrt(M^2*(M^2 + pT^2))`; scaling `pz` by
any `k > 0` leaves the result unchanged and replacing `pz` by `-pz` negates
it. -/
theorem CosTheta_sign_of_pz (invMass pz P1p P2p P1m P2m SystempT : ℝ) (hpz : pz ≠ 0) :
    CosTheta (fin invMass) (fin pz) (fin P1p) (fin P2p) (fin P1m) (fin P2m) (fin SystempT)
      = fin (Real.sign pz * (2 * (P1p * P2m - P1m * P2p)))
          / fin (Real.sqrt (invMass ^ 2 * (invMass ^ 2 + SystempT ^ 2)))
    ∧ (∀ k : ℝ, 0 < k →
        CosTheta (fin invMass) (fin (k * pz)) (fin P1p) (fin P2p) (fin P1m) (fin P2m)
            (fin SystempT)
          = CosTheta (fin invMass) (fin pz) (fin P1p) (fin P2p) (fin P1m) (fin P2m)
              (fin SystempT))
    ∧ CosTheta (fin invMass) (fin (-pz)) (fin P1p) (fin P2p) (fin P1m) (fin P2m)
          (fin SystempT)
        = -CosTheta (fin invMass) (fin pz) (fin P1p) (fin P2p) (fin P1m) (fin P2m)
            (fin SystempT) := by
  refine ⟨CosTheta_fin_sign _ _ _ _ _ _ _ hpz, fun k hk => ?_, ?_⟩
  · have hsign : Real.sign (k * pz) = Real.sign pz := by
      rcases lt_or_gt_of_ne hpz with hneg | hpos
      · rw [Real.sign_of_neg hneg, Real.sign_of_neg (mul_neg_of_pos_of_neg hk hneg)]
      · rw [Real.sign_of_pos hpos, Real.sign_of_pos (mul_pos hk hpos)]
    rw [CosTheta_fin_sign _ _ _ _ _ _ _ (mul_ne_zero hk.ne.symm hpz),
      CosTheta_fin_sign _ _ _ _ _ _ _ hpz, hsign]
  · rw [CosTheta_fin_sign _ _ _ _ _ _ _ (neg_ne_zero.mpr hpz),
      CosTheta_fin_sign _ _ _ _ _ _ _ hpz, Real.sign_neg, neg_mul, FloatVal.neg_fin_div]

/-- Witness for C18: `CosTheta(1, -3, 1, 0, 0, 1, 0) = -2`, the negative of the
value at `pz = 3`. -/
theorem CosTheta_sign_of_pz_witness :
    CosTheta (fin 1) (fin (-3)) (fin 1) (fin 0) (fin 0) (fin 1) (fin 0) = fin (-2) := by
  rw [(CosTheta_sign_of_pz 1 (-3) 1 0 0 1 0 (by norm_num)).1,
    Real.sign_of_neg (by norm_num)]
  norm_num [fin_div_fin]

/-! ## Quantities fed to CosTheta -/

/-- Value of `P1p` on a vector. -/
theorem P1p_fin (v : PtEtaPhiMVector) : P1p v = fin ((v.e + v.pz) / Real.sqrt 2) := by
  simp only [P1p, PtEtaPhiMVector.E, PtEtaPhiMVector.Pz, sqrt_two_fin, fin_add_fin,
    fin_div_fin _ _ sqrt_two_ne_zero]

/-- Value of `P2p` on a vector. -/
theorem P2p_fin (v : PtEtaPhiMVector) : P2p v = fin ((v.e + v.pz) / Real.sqrt 2) :=
  P1p_fin v

/-- Value of `P1m` on a vector. -/
theorem P1m_fin (v : PtEtaPhiMVector) : P1m v = fin ((v.e - v.pz) / Real.sqrt 2) := by
  simp only [P1m, PtEtaPhiMVector.E, PtEtaPhiMVector.Pz, sqrt_two_fin, fin_sub_fin,
    fin_div_fin _ _ sqrt_two_ne_zero]

/-- Value of `P2m` on a vector. -/
theorem P2m_fin (v : PtEtaPhiMVector) : P2m v = fin ((v.e - v.pz) / Real.sqrt 2) :=
  P1m_fin v

/-- A vector built by `Vector` has non-negative energy. -/
theorem Vector_e_nonneg (pt eta phi mass : ℝ) : 0 ≤ (Vector pt eta phi mass).e :=
  PtEtaPhiMVector.ofPtEtaPhiM_e_nonneg pt eta phi mass

/-- A vector built by `Vector` is not spacelike. -/
theorem Vector_not_spacelike (pt eta phi mass : ℝ) :
    (Vector pt eta phi mass).px ^ 2 + (Vector pt eta phi mass).py ^ 2
      + (Vector pt eta phi mass).pz ^ 2 ≤ (Vector pt eta phi mass).e ^ 2 := by
  have hsq := PtEtaPhiMVector.ofPtEtaPhiM_e_sq pt eta phi mass
  show _ ≤ (PtEtaPhiMVector.ofPtEtaPhiM pt eta phi mass).e ^ 2
  rw [hsq]
  exact le_add_of_nonneg_right (sq_nonneg mass)

/-- For a vector of non-negative energy that is not spacelike, `E + pz` and
`E - pz` are non-negative and bound the squared transverse momentum. -/
theorem lightCone_nonneg (v : PtEtaPhiMVector) (hve : 0 ≤ v.e)
    (hv : v.px ^ 2 + v.py ^ 2 + v.pz ^ 2 ≤ v.e ^ 2) :
    0 ≤ v.e + v.pz ∧ 0 ≤ v.e - v.pz
      ∧ v.px ^ 2 + v.py ^ 2 ≤ (v.e + v.pz) * (v.e - v.pz) := by
  have hz : v.pz ^ 2 ≤ v.e ^ 2 := by nlinarith [sq_nonneg v.px, sq_nonneg v.py]
  obtain ⟨hlo, hhi⟩ := abs_le_of_sq_le_sq' hz hve
  exact ⟨by linarith, by linarith, by nlinarith⟩

/-- For two vectors of non-negative energy that are not spacelike, the squared
invariant mass plus the squared transverse momentum of the pair is
`2 * (P1p + P2p) * (P1m + P2m)`. -/
theorem mass_sq_add_pt_sq (p q : PtEtaPhiMVector) (hpe : 0 ≤ p.e) (hqe : 0 ≤ q.e)
    (hp : p.px ^ 2 + p.py ^ 2 + p.pz ^ 2 ≤ p.e ^ 2)
    (hq : q.px ^ 2 + q.py ^ 2 + q.pz ^ 2 ≤ q.e ^ 2) :
    pow (invMass p q) 2 + pow (SystempT p q) 2
      = fin 2 * (P1p p + P2p q) * (P1m p + P2m q) := by
  have hsum := sum_not_spacelike p q hpe hqe hp hq
  have hne := sqrt_two_ne_zero
  have hT : 0 ≤ (p + q).px ^ 2 + (p + q).py ^ 2 := by positivity
  rw [invMass, SystempT, PtEtaPhiMVector.M_of_nonneg _ hsum, PtEtaPhiMVector.Pt_eq,
    P1p_fin, P2p_fin, P1m_fin, P2m_fin]
  simp only [PtEtaPhiMVector.add_px, PtEtaPhiMVector.add_py, PtEtaPhiMVector.add_pz,
    PtEtaPhiMVector.add_e] at hsum hT ⊢
  simp only [pow_fin, fin_add_fin, fin_mul_fin, Real.sq_sqrt hsum, Real.sq_sqrt hT]
  congr 1
  field_simp
  ring

/-- The algebraic core of the Collins-Soper bound, in light-cone variables
`a = E + pz`, `b = E - pz` of two particles whose transverse momenta `(x, y)`
satisfy `x^2 + y^2 <= a * b`. -/
theorem collins_soper_bound (a1 b1 a2 b2 x1 y1 x2 y2 : ℝ)
    (ha1 : 0 ≤ a1) (hb1 : 0 ≤ b1) (ha2 : 0 ≤ a2) (hb2 : 0 ≤ b2)
    (h1 : x1 ^ 2 + y1 ^ 2 ≤ a1 * b1) (h2 : x2 ^ 2 + y2 ^ 2 ≤ a2 * b2) :
    (a1 * b2 - a2 * b1) ^ 2
      ≤ ((a1 + a2) * (b1 + b2) - ((x1 + x2) ^ 2 + (y1 + y2) ^ 2))
          * ((a1 + a2) * (b1 + b2)) := by
  have hprod : 0 ≤ a1 * b1 * (a2 * b2) := by positivity
  obtain ⟨w, hw0, hw⟩ : ∃ w : ℝ, 0 ≤ w ∧ w ^ 2 = a1 * b1 * (a2 * b2) :=
    ⟨Real.sqrt (a1 * b1 * (a2 * b2)), Real.sqrt_nonneg _, Real.sq_sqrt hprod⟩
  have hcs : (x1 * x2 + y1 * y2) ^ 2 ≤ (x1 ^ 2 + y1 ^ 2) * (x2 ^ 2 + y2 ^ 2) := by
    nlinarith [sq_nonneg (x1 * y2 - y1 * x2)]
  have hle : (x1 ^ 2 + y1 ^ 2) * (x2 ^ 2 + y2 ^ 2) ≤ a1 * b1 * (a2 * b2) :=
    mul_le_mul h1 h2 (by positivity) (by positivity)
  have hdot : x1 * x2 + y1 * y2 ≤ w :=
    (abs_le_of_sq_le_sq' (by rw [hw]; exact hcs.trans hle) hw0).2
  have hP0 : 0 ≤ a1 * b2 + a2 * b1 := by positivity
  have hQ0 : 0 ≤ a1 * b1 + a2 * b2 := by positivity
  have hP : 2 * w ≤ a1 * b2 + a2 * b1 := by
    refine (abs_le_of_sq_le_sq' ?_ hP0).2
    nlinarith [sq_nonneg (a1 * b2 - a2 * b1)]
  have hQ : 2 * w ≤ a1 * b1 + a2 * b2 := by
    refine (abs_le_of_sq_le_sq' ?_ hQ0).2
    nlinarith [sq_nonneg (a1 * b1 - a2 * b2)]
  have hlow : a1 * b2 + a2 * b1 - 2 * w
      ≤ (a1 + a2) * (b1 + b2) - ((x1 + x2) ^ 2 + (y1 + y2) ^ 2) := by
    nlinarith [h1, h2, hdot]
  have hup : a1 * b2 + a2 * b1 + 2 * w ≤ (a1 + a2) * (b1 + b2) := by
    nlinarith [hQ]
  have hfac : (a1 * b2 - a2 * b1) ^ 2
      = (a1 * b2 + a2 * b1 - 2 * w) * (a1 * b2 + a2 * b1 + 2 * w) := by
    linear_combination (4 : ℝ) * hw
  rw [hfac]
  exact mul_le_mul hlow hup (by linarith) (by linarith)

/-- For two vectors of non-negative energy that are not spacelike, the
radicand of `CosTheta` is a non-negative finite value. -/
theorem radicand_fin (p q : PtEtaPhiMVector)
    (hsum : 0 ≤ (p + q).e ^ 2 - ((p + q).px ^ 2 + (p + q).py ^ 2 + (p + q).pz ^ 2)) :
    pow (invMass p q) 2 * (pow (invMass p q) 2 + pow (SystempT p q) 2)
      = fin (((p + q).e ^ 2 - ((p + q).px ^ 2 + (p + q).py ^ 2 + (p + q).pz ^ 2))
          * ((p + q).e ^ 2 - (p + q).pz ^ 2))
    ∧ 0 ≤ ((p + q).e ^ 2 - ((p + q).px ^ 2 + (p + q).py ^ 2 + (p + q).pz ^ 2))
          * ((p + q).e ^ 2 - (p + q).pz ^ 2) := by
  have hT : 0 ≤ (p + q).px ^ 2 + (p + q).py ^ 2 := by positivity
  constructor
  · rw [invMass, SystempT, PtEtaPhiMVector.M_of_nonneg _ hsum, PtEtaPhiMVector.Pt_eq]
    simp only [pow_fin, fin_add_fin, fin_mul_fin, Real.sq_sqrt hsum, Real.sq_sqrt hT]
    congr 2
    ring
  · exact mul_nonneg hsum (by linarith)

/-- C19: for two vectors built from physical inputs, the squared invariant
mass plus the squared system transverse momentum equals
`2 * (P1p(p1) + P2p(p2)) * (P1m(p1) + P2m(p2))`, so the radicand in
`CosTheta` is `invMass^2 * 2 * (P1p + P2p) * (P1m + P2m)`, a non-negative
finite value. -/
theorem radicand_identity (pt1 eta1 phi1 m1 pt2 eta2 phi2 m2 : ℝ)
    (_hpt1 : 0 ≤ pt1) (_hm1 : 0 ≤ m1) (_hpt2 : 0 ≤ pt2) (_hm2 : 0 ≤ m2) :
    pow (invMass (Vector pt1 eta1 phi1 m1) (Vector pt2 eta2 phi2 m2)) 2
        + pow (SystempT (Vector pt1 eta1 phi1 m1) (Vector pt2 eta2 phi2 m2)) 2
      = fin 2 * (P1p (Vector pt1 eta1 phi1 m1) + P2p (Vector pt2 eta2 phi2 m2))
          * (P1m (Vector pt1 eta1 phi1 m1) + P2m (Vector pt2 eta2 phi2 m2))
    ∧ pow (invMass (Vector pt1 eta1 phi1 m1) (Vector pt2 eta2 phi2 m2)) 2
          * (pow (invMass (Vector pt1 eta1 phi1 m1) (Vector pt2 eta2 phi2 m2)) 2
            + pow (SystempT (Vector pt1 eta1 phi1 m1) (Vector pt2 eta2 phi2 m2)) 2)
        = pow (invMass (Vector pt1 eta1 phi1 m1) (Vector pt2 eta2 phi2 m2)) 2
            * (fin 2 * (P1p (Vector pt1 eta1 phi1 m1) + P2p (Vector pt2 eta2 phi2 m2))
              * (P1m (Vector pt1 eta1 phi1 m1) + P2m (Vector pt2 eta2 phi2 m2)))
    ∧ ∃ r : ℝ, 0 ≤ r
        ∧ pow (invMass (Vector pt1 eta1 phi1 m1) (Vector pt2 eta2 phi2 m2)) 2
            * (pow (invMass (Vector pt1 eta1 phi1 m1) (Vector pt2 eta2 phi2 m2)) 2
              + pow (SystempT (Vector pt1 eta1 phi1 m1) (Vector pt2 eta2 phi2 m2)) 2)
          = fin r := by
  have hid := mass_sq_add_pt_sq (Vector pt1 eta1 phi1 m1) (Vector pt2 eta2 phi2 m2)
    (Vector_e_nonneg _ _ _ _) (Vector_e_nonneg _ _ _ _)
    (Vector_not_spacelike _ _ _ _) (Vector_not_spacelike _ _ _ _)
  have hsum := sum_not_spacelike (Vector pt1 eta1 phi1 m1) (Vector pt2 eta2 phi2 m2)
    (Vector_e_nonneg _ _ _ _) (Vector_e_nonneg _ _ _ _)
    (Vector_not_spacelike _ _ _ _) (Vector_not_spacelike _ _ _ _)
  have hrad := radicand_fin _ _ hsum
  exact ⟨hid, by rw [hid], _, hrad.2, hrad.1⟩

/-- Witness for C19: the muon pair of the spec's end-to-end scenario. -/
theorem radicand_identity_witness :
    pow (invMass (Vector 30 0.5 0 0.1057) (Vector 25 (-0.3) 3 0.1057)) 2
        + pow (SystempT (Vector 30 0.5 0 0.1057) (Vector 25 (-0.3) 3 0.1057)) 2
      = fin 2 * (P1p (Vector 30 0.5 0 0.1057) + P2p (Vector 25 (-0.3) 3 0.1057))
          * (P1m (Vector 30 0.5 0 0.1057) + P2m (Vector 25 (-0.3) 3 0.1057)) :=
  (radicand_identity 30 0.5 0 0.1057 25 (-0.3) 3 0.1057
    (by norm_num) (by norm_num) (by norm_num) (by norm_num)).1

/-! ## Range of CosTheta on a physical pair -/

/-- For two vectors of non-negative energy that are not spacelike, whose sum
has positive squared mass and non-zero `pz`, `CosTheta` of the quantities of
the pair is a finite value of absolute value at most one. -/
theorem CosTheta_pair_bound (p q : PtEtaPhiMVector) (hpe : 0 ≤ p.e) (hqe : 0 ≤ q.e)
    (hp : p.px ^ 2 + p.py ^ 2 + p.pz ^ 2 ≤ p.e ^ 2)
    (hq : q.px ^ 2 + q.py ^ 2 + q.pz ^ 2 ≤ q.e ^ 2)
    (hM2 : 0 < (p + q).e ^ 2 - ((p + q).px ^ 2 + (p + q).py ^ 2 + (p + q).pz ^ 2))
    (hz : (p + q).pz ≠ 0) :
    ∃ c : ℝ, CosTheta (invMass p q) (pz p q) (P1p p) (P2p q) (P1m p) (P2m q) (SystempT p q)
        = fin c ∧ |c| ≤ 1 := by
  have hT : 0 ≤ (p + q).px ^ 2 + (p + q).py ^ 2 := by positivity
  have hne := sqrt_two_ne_zero
  obtain ⟨hpa, hpb, hpt⟩ := lightCone_nonneg p hpe hp
  obtain ⟨hqa, hqb, hqt⟩ := lightCone_nonneg q hqe hq
  have hcore := collins_soper_bound (p.e + p.pz) (p.e - p.pz) (q.e + q.pz) (q.e - q.pz)
    p.px p.py q.px q.py hpa hpb hqa hqb hpt hqt
  have hpzval : pz p q = fin (p + q).pz := rfl
  rw [invMass, SystempT, PtEtaPhiMVector.M_of_nonneg _ hM2.le, PtEtaPhiMVector.Pt_eq,
    hpzval, P1p_fin, P2p_fin, P1m_fin, P2m_fin, CosTheta_fin_sign _ _ _ _ _ _ _ hz,
    Real.sq_sqrt hM2.le, Real.sq_sqrt hT]
  simp only [PtEtaPhiMVector.add_px, PtEtaPhiMVector.add_py, PtEtaPhiMVector.add_pz,
    PtEtaPhiMVector.add_e] at hM2 hz ⊢
  have hrad : ((p.e + q.e) ^ 2 - ((p.px + q.px) ^ 2 + (p.py + q.py) ^ 2 + (p.pz + q.pz) ^ 2))
      * ((p.e + q.e) ^ 2 - ((p.px + q.px) ^ 2 + (p.py + q.py) ^ 2 + (p.pz + q.pz) ^ 2)
        + ((p.px + q.px) ^ 2 + (p.py + q.py) ^ 2))
      = ((p.e + p.pz + (q.e + q.pz)) * (p.e - p.pz + (q.e - q.pz))
          - ((p.px + q.px) ^ 2 + (p.py + q.py) ^ 2))
        * ((p.e + p.pz + (q.e + q.pz)) * (p.e - p.pz + (q.e - q.pz))) := by
    ring
  have hnum : 2 * ((p.e + p.pz) / Real.sqrt 2 * ((q.e - q.pz) / Real.sqrt 2)
      - (p.e - p.pz) / Real.sqrt 2 * ((q.e + q.pz) / Real.sqrt 2))
      = (p.e + p.pz) * (q.e - q.pz) - (q.e + q.pz) * (p.e - p.pz) := by
    field_simp
    ring
  rw [hrad, hnum]
  have hradpos : 0 < ((p.e + p.pz + (q.e + q.pz)) * (p.e - p.pz + (q.e - q.pz))
          - ((p.px + q.px) ^ 2 + (p.py + q.py) ^ 2))
        * ((p.e + p.pz + (q.e + q.pz)) * (p.e - p.pz + (q.e - q.pz))) := by
    rw [← hrad]
    exact mul_pos hM2 (by nlinarith [sq_nonneg (p.px + q.px), sq_nonneg (p.py + q.py)])
  have hS := Real.sqrt_pos.mpr hradpos
  rw [fin_div_fin _ _ hS.ne.symm]
  refine ⟨_, rfl, ?_⟩
  have hsign : |Real.sign (p.pz + q.pz)| = 1 := by
    rcases lt_or_gt_of_ne hz with hneg | hpos
    · rw [Real.sign_of_neg hneg]
      norm_num
    · rw [Real.sign_of_pos hpos]
      norm_num
  rw [abs_div, abs_mul, hsign, one_mul, abs_of_pos hS, div_le_one hS]
  exact Real.abs_le_sqrt hcore

/-- C16: for two vectors built from physical inputs (`pt >= 0`, `mass >= 0`)
with `invMass > 0` and `pz` not zero, `CosTheta` of the seven quantities
computed from that pair is a finite value in `[-1, 1]`. -/
theorem CosTheta_in_range (pt1 eta1 phi1 m1 pt2 eta2 phi2 m2 Mv : ℝ)
    (_hpt1 : 0 ≤ pt1) (_hm1 : 0 ≤ m1) (_hpt2 : 0 ≤ pt2) (_hm2 : 0 ≤ m2)
    (hM : invMass (Vector pt1 eta1 phi1 m1) (Vector pt2 eta2 phi2 m2) = fin Mv)
    (hMpos : 0 < Mv)
    (hpz : pz (Vector pt1 eta1 phi1 m1) (Vector pt2 eta2 phi2 m2) ≠ fin 0) :
    ∃ c : ℝ,
      CosTheta (invMass (Vector pt1 eta1 phi1 m1) (Vector pt2 eta2 phi2 m2))
          (pz (Vector pt1 eta1 phi1 m1) (Vector pt2 eta2 phi2 m2))
          (P1p (Vector pt1 eta1 phi1 m1)) (P2p (Vector pt2 eta2 phi2 m2))
          (P1m (Vector pt1 eta1 phi1 m1)) (P2m (Vector pt2 eta2 phi2 m2))
          (SystempT (Vector pt1 eta1 phi1 m1) (Vector pt2 eta2 phi2 m2))
        = fin c
      ∧ -1 ≤ c ∧ c ≤ 1 := by
  have hsum := sum_not_spacelike (Vector pt1 eta1 phi1 m1) (Vector pt2 eta2 phi2 m2)
    (Vector_e_nonneg _ _ _ _) (Vector_e_nonneg _ _ _ _)
    (Vector_not_spacelike _ _ _ _) (Vector_not_spacelike _ _ _ _)
  have hMv : Mv = Real.sqrt
      (((Vector pt1 eta1 phi1 m1) + (Vector pt2 eta2 phi2 m2)).e ^ 2
        - (((Vector pt1 eta1 phi1 m1) + (Vector pt2 eta2 phi2 m2)).px ^ 2
          + ((Vector pt1 eta1 phi1 m1) + (Vector pt2 eta2 phi2 m2)).py ^ 2
          + ((Vector pt1 eta1 phi1 m1) + (Vector pt2 eta2 phi2 m2)).pz ^ 2)) := by
    have hval : invMass (Vector pt1 eta1 phi1 m1) (Vector pt2 eta2 phi2 m2) = _ :=
      PtEtaPhiMVector.M_of_nonneg _ hsum
    rw [hM] at hval
    exact FloatVal.fin.inj hval
  have hM2 := Real.sqrt_pos.mp (hMv ▸ hMpos)
  have hz : ((Vector pt1 eta1 phi1 m1) + (Vector pt2 eta2 phi2 m2)).pz ≠ 0 := by
    intro hc
    apply hpz
    show fin ((Vector pt1 eta1 phi1 m1) + (Vector pt2 eta2 phi2 m2)).pz = fin 0
    rw [hc]
  obtain ⟨c, hc, hbound⟩ := CosTheta_pair_bound _ _
    (Vector_e_nonneg _ _ _ _) (Vector_e_nonneg _ _ _ _)
    (Vector_not_spacelike _ _ _ _) (Vector_not_spacelike _ _ _ _) hM2 hz
  exact ⟨c, hc, (abs_le.mp hbound).1, (abs_le.mp hbound).2⟩

/-- Witness for C16: a massive particle at rest, `Vector(0, 0, 0, 1)`, and a
massless one, `Vector(1, 1, 0, 0)`; the pair has squared mass `2 cosh 1 + 1`
and `pz = sinh 1`. -/
theorem CosTheta_in_range_witness :
    ∃ c : ℝ,
      CosTheta (invMass (Vector 0 0 0 1) (Vector 1 1 0 0))
          (pz (Vector 0 0 0 1) (Vector 1 1 0 0))
          (P1p (Vector 0 0 0 1)) (P2p (Vector 1 1 0 0))
          (P1m (Vector 0 0 0 1)) (P2m (Vector 1 1 0 0))
          (SystempT (Vector 0 0 0 1) (Vector 1 1 0 0))
        = fin c
      ∧ -1 ≤ c ∧ c ≤ 1 := by
  have hcosh : 0 < Real.cosh 1 := Real.cosh_pos 1
  have hsinh : 0 < Real.sinh 1 := Real.sinh_pos_iff.mpr one_pos
  have he2 : (Vector 1 1 0 0).e = Real.cosh 1 := by
    show Real.sqrt ((1 * Real.cosh 1) ^ 2 + 0 ^ 2) = Real.cosh 1
    rw [one_mul, zero_pow two_ne_zero, add_zero, Real.sqrt_sq hcosh.le]
  have he1 : (Vector 0 0 0 1).e = 1 := by
    show Real.sqrt ((0 * Real.cosh 0) ^ 2 + 1 ^ 2) = 1
    norm_num
  have hz1 : (Vector 0 0 0 1).pz = 0 := by
    show 0 * Real.sinh 0 = 0
    norm_num
  have hz2 : (Vector 1 1 0 0).pz = Real.sinh 1 := by
    show 1 * Real.sinh 1 = Real.sinh 1
    norm_num
  have hx1 : (Vector 0 0 0 1).px = 0 := by
    show 0 * Real.cos 0 = 0
    norm_num
  have hy1 : (Vector 0 0 0 1).py = 0 := by
    show 0 * Real.sin 0 = 0
    norm_num
  have hx2 : (Vector 1 1 0 0).px = 1 := by
    show 1 * Real.cos 0 = 1
    norm_num
  have hy2 : (Vector 1 1 0 0).py = 0 := by
    show 1 * Real.sin 0 = 0
    norm_num
  have hM2 : 0 < ((Vector 0 0 0 1) + (Vector 1 1 0 0)).e ^ 2
      - (((Vector 0 0 0 1) + (Vector 1 1 0 0)).px ^ 2
        + ((Vector 0 0 0 1) + (Vector 1 1 0 0)).py ^ 2
        + ((Vector 0 0 0 1) + (Vector 1 1 0 0)).pz ^ 2) := by
    simp only [PtEtaPhiMVector.add_px, PtEtaPhiMVector.add_py, PtEtaPhiMVector.add_pz,
      PtEtaPhiMVector.add_e, he1, he2, hz1, hz2, hx1, hy1, hx2, hy2]
    nlinarith [Real.cosh_sq 1]
  refine CosTheta_in_range 0 0 0 1 1 1 0 0 _ le_rfl zero_le_one zero_le_one le_rfl
    (PtEtaPhiMVector.M_of_nonneg _ hM2.le) (Real.sqrt_pos.mpr hM2) ?_
  intro hc
  have hzero : ((Vector 0 0 0 1) + (Vector 1 1 0 0)).pz = 0 := FloatVal.fin.inj hc
  rw [PtEtaPhiMVector.add_pz, hz1, hz2, zero_add] at hzero
  exact hsinh.ne.symm hzero

/-! ## Totality -/

/-- The magnitude of a spacelike vector is NaN. -/
theorem PtEtaPhiMVector.M_of_neg (v : PtEtaPhiMVector)
    (hv : v.e ^ 2 - (v.px ^ 2 + v.py ^ 2 + v.pz ^ 2) < 0) : v.M = nan := by
  have hrw : v.e * v.e - (v.px * v.px + v.py * v.py + v.pz * v.pz)
      = v.e ^ 2 - (v.px ^ 2 + v.py ^ 2 + v.pz ^ 2) := by ring
  simp only [PtEtaPhiMVector.M, PtEtaPhiMVector.E, PtEtaPhiMVector.Px, PtEtaPhiMVector.Py,
    PtEtaPhiMVector.Pz, fin_mul_fin, fin_add_fin, fin_sub_fin, hrw]
  simp [sqrt, hv]

/-- A weight whose denominator base is zero is NaN when its numerator is zero
and plus infinity otherwise. -/
theorem fin_div_zero_of_nonneg (n d : ℝ) (hn : 0 ≤ n) (hd : d = 0) :
    fin n / fin d = if n = 0 then nan else pinf := by
  subst hd
  rw [fin_div_zero]
  by_cases h0 : n = 0
  · simp [h0]
  · have hpos : 0 < n := lt_of_le_of_ne hn (Ne.symm h0)
    simp [h0, hpos]

/-- C15: each function of sections 4.3-4.11 returns a value for every input,
and where a denominator vanishes or the input is non-physical that value is
NaN or an infinity: `invMass` of a spacelike sum is NaN, `Rapidity` with
`E = pz > 0` is plus infinity, `CosTheta` with a zero denominator is NaN or an
infinity, and `wD`, `wN` with a zero denominator are NaN or plus infinity. -/
theorem functions_total :
    ((∀ p1 p2, ∃ v, invMass p1 p2 = v) ∧ (∀ p1 p2, ∃ v, Rapidity p1 p2 = v)
      ∧ (∀ p1 p2, ∃ v, pz p1 p2 = v) ∧ (∀ p1 p2, ∃ v, SystempT p1 p2 = v)
      ∧ (∀ p, ∃ v, P1p p = v) ∧ (∀ p, ∃ v, P2p p = v)
      ∧ (∀ p, ∃ v, P1m p = v) ∧ (∀ p, ∃ v, P2m p = v)
      ∧ (∀ a b c d e f g, ∃ v, CosTheta a b c d e f g = v)
      ∧ (∀ c, ∃ v, h c = v) ∧ (∀ c hv, ∃ v, wD c hv = v) ∧ (∀ c hv, ∃ v, wN c hv = v))
    ∧ (∀ p1 p2 : PtEtaPhiMVector,
        (p1 + p2).e ^ 2 - ((p1 + p2).px ^ 2 + (p1 + p2).py ^ 2 + (p1 + p2).pz ^ 2) < 0 →
        invMass p1 p2 = nan)
    ∧ (∀ p1 p2 : PtEtaPhiMVector,
        p1.e + p2.e - (p1.pz + p2.pz) = 0 → 0 < p1.e + p2.e + (p1.pz + p2.pz) →
        Rapidity p1 p2 = pinf)
    ∧ (∀ invMass pz P1p P2p P1m P2m SystempT : ℝ,
        Real.sqrt (invMass ^ 2 * (invMass ^ 2 + SystempT ^ 2)) * |pz| = 0 →
        CosTheta (fin invMass) (fin pz) (fin P1p) (fin P2p) (fin P1m) (fin P2m)
            (fin SystempT)
          = if 2 * (P1p * P2m - P1m * P2p) * pz = 0 then nan
            else if 0 < 2 * (P1p * P2m - P1m * P2p) * pz then pinf else ninf)
    ∧ (∀ c hv : ℝ, 1 + c ^ 2 + hv = 0 →
        wD (fin c) (fin hv) = if c = 0 then nan else pinf)
    ∧ (∀ c hv : ℝ, 1 + c ^ 2 + hv = 0 →
        wN (fin c) (fin hv) = if c = 0 then nan else pinf) := by
  refine ⟨⟨fun _ _ => ⟨_, rfl⟩, fun _ _ => ⟨_, rfl⟩, fun _ _ => ⟨_, rfl⟩, fun _ _ => ⟨_, rfl⟩,
    fun _ => ⟨_, rfl⟩, fun _ => ⟨_, rfl⟩, fun _ => ⟨_, rfl⟩, fun _ => ⟨_, rfl⟩,
    fun _ _ _ _ _ _ _ => ⟨_, rfl⟩, fun _ => ⟨_, rfl⟩, fun _ _ => ⟨_, rfl⟩,
    fun _ _ => ⟨_, rfl⟩⟩, ?_, ?_, ?_, ?_, ?_⟩
  · intro p1 p2 hneg
    exact PtEtaPhiMVector.M_of_neg _ hneg
  · intro p1 p2 hden hnum
    simp only [Rapidity, PtEtaPhiMVector.Rapidity, PtEtaPhiMVector.E, PtEtaPhiMVector.Pz,
      PtEtaPhiMVector.add_e, PtEtaPhiMVector.add_pz, fin_add_fin, fin_sub_fin, hden]
    rw [fin_div_zero, if_neg hnum.ne.symm, if_pos hnum]
    show infTimes 0.5 true = pinf
    norm_num [infTimes]
  · intro invMass pz P1p P2p P1m P2m SystempT hden
    rw [CosTheta_fin, hden, fin_div_zero]
  · intro c hv hbase
    rw [wD_fin, fin_div_zero_of_nonneg _ _ (by positivity) (by rw [hbase]; norm_num)]
    have hiff : 0.5 * c ^ 2 = 0 ↔ c = 0 := by
      constructor
      · intro hc
        exact (pow_eq_zero_iff two_ne_zero).mp (by linarith : c ^ 2 = 0)
      · intro hc
        rw [hc]
        norm_num
    simp only [hiff]
  · intro c hv hbase
    rw [wN_fin, fin_div_zero_of_nonneg _ _ (by positivity) (by rw [hbase]; norm_num)]
    have hiff : 0.5 * |c| = 0 ↔ c = 0 := by
      constructor
      · intro hc
        exact abs_eq_zero.mp (by linarith)
      · intro hc
        rw [hc]
        norm_num
    simp only [hiff]

/-- Witness for C15: `wD(1, -2) = 0.5 / 0 = +inf`, `wN(0, -1) = 0 / 0 = NaN`, the
spacelike sum `(1, 0, 0, 0) + (0, 0, 0, 0)` has `invMass` NaN, the lightlike sum
`(0, 0, 1, 1) + (0, 0, 0, 0)` has `Rapidity` plus infinity, and
`CosTheta(0, 1, 1, 0, 0, 1, 0) = 2 / 0 = +inf`. -/
theorem functions_total_witness :
    wD (fin 1) (fin (-2)) = pinf ∧ wN (fin 0) (fin (-1)) = nan
    ∧ invMass ⟨1, 0, 0, 0, fin 0⟩ ⟨0, 0, 0, 0, fin 0⟩ = nan
    ∧ Rapidity ⟨0, 0, 1, 1, pinf⟩ ⟨0, 0, 0, 0, fin 0⟩ = pinf
    ∧ CosTheta (fin 0) (fin 1) (fin 1) (fin 0) (fin 0) (fin 1) (fin 0) = pinf := by
  refine ⟨?_, ?_, ?_, ?_, ?_⟩
  · rw [functions_total.2.2.2.2.1 1 (-2) (by norm_num)]
    norm_num
  · rw [functions_total.2.2.2.2.2 0 (-1) (by norm_num)]
    norm_num
  · exact functions_total.2.1 ⟨1, 0, 0, 0, fin 0⟩ ⟨0, 0, 0, 0, fin 0⟩ (by
      simp only [PtEtaPhiMVector.add_px, PtEtaPhiMVector.add_py, PtEtaPhiMVector.add_pz,
        PtEtaPhiMVector.add_e]
      norm_num)
  · exact functions_total.2.2.1 ⟨0, 0, 1, 1, pinf⟩ ⟨0, 0, 0, 0, fin 0⟩ (by norm_num) (by norm_num)
  · rw [functions_total.2.2.2.1 0 1 1 0 0 1 0 (by norm_num)]
    norm_num

/-! ## Additivity of the system four-vector -/

/-- A finite value of magnitude at most `2^-150` converts to zero. -/
theorem FloatVal.toFloat_of_le (x : ℝ) (habs : |x| ≤ (1 / 2) ^ 150) :
    toFloat (fin x) = fin 0 := by
  show (if |x| ≤ (1 / 2) ^ 150 then fin 0 else fin x) = fin 0
  rw [if_pos habs]

/-- A finite value of magnitude above `2^-150` is kept by the conversion. -/
theorem FloatVal.toFloat_of_gt (x : ℝ) (habs : ¬ |x| ≤ (1 / 2) ^ 150) :
    toFloat (fin x) = fin x := by
  show (if |x| ≤ (1 / 2) ^ 150 then fin 0 else fin x) = fin x
  rw [if_neg habs]

/-- A non-negative finite value converts to zero exactly when it is at most
`2^-150`. -/
theorem FloatVal.toFloat_eq_zero_iff (x : ℝ) (hx : 0 ≤ x) :
    toFloat (fin x) = fin 0 ↔ x ≤ (1 / 2) ^ 150 := by
  by_cases hle : x ≤ (1 / 2) ^ 150
  · have habs : |x| ≤ (1 / 2) ^ 150 := by rwa [abs_of_nonneg hx]
    exact ⟨fun _ => hle, fun _ => FloatVal.toFloat_of_le x habs⟩
  · have habs : ¬ |x| ≤ (1 / 2) ^ 150 := by rwa [abs_of_nonneg hx]
    constructor
    · intro hz
      rw [FloatVal.toFloat_of_gt x habs] at hz
      have hx0 : x = 0 := FloatVal.fin.inj hz
      exact absurd (by rw [hx0]; positivity) hle
    · intro hc
      exact absurd hc hle

/-- A non-negative finite value converts to a non-negative finite value. -/
theorem FloatVal.toFloat_nonneg (x : ℝ) (hx : 0 ≤ x) :
    ∃ d : ℝ, toFloat (fin x) = fin d ∧ 0 ≤ d := by
  by_cases habs : |x| ≤ (1 / 2) ^ 150
  · exact ⟨0, FloatVal.toFloat_of_le x habs, le_rfl⟩
  · exact ⟨x, FloatVal.toFloat_of_gt x habs, hx⟩

/-- Counterexample to C17 as stated: at `c = 2^-80`, which is not zero, the
quotient `0.5 * c^2 / (1.05 + 0.85*c^2)^3` is below `2^-150`, so `wD(c, h(c))`
returned as `float` is exactly zero. -/
theorem weights_at_h_underflow :
    wDFloat (fin ((1 / 2) ^ 80)) (h (fin ((1 / 2) ^ 80))) = fin 0
    ∧ ((1 / 2 : ℝ) ^ 80) ≠ 0 := by
  refine ⟨?_, by positivity⟩
  have hval := (weights_at_h_exact ((1 / 2) ^ 80)).2.2.1
  have hbase : (1 : ℝ) ≤ (1.05 + 0.85 * ((1 / 2 : ℝ) ^ 80) ^ 2) ^ 3 :=
    one_le_pow₀ (by nlinarith [sq_nonneg ((1 / 2 : ℝ) ^ 80)])
  have hq : 0.5 * ((1 / 2 : ℝ) ^ 80) ^ 2 / (1.05 + 0.85 * ((1 / 2 : ℝ) ^ 80) ^ 2) ^ 3
      ≤ (1 / 2) ^ 150 := by
    refine (div_le_self (by positivity) hbase).trans ?_
    norm_num
  rw [wDFloat, hval]
  exact (FloatVal.toFloat_eq_zero_iff _ (by positivity)).mpr hq

/-- C17 (amended): with `h(c)` as second argument the base `1 + c^2 + h(c)` of
both denominators is `1.05 + 0.85*c^2 >= 1.05 > 0`, so neither weight divides
by zero; returned as `float`, `wD(c, h(c))` and `wN(c, h(c))` are finite and
non-negative, and both are zero when `c = 0`.  The exact quotients are zero
only when `c = 0`, but the returned value is zero exactly when the quotient is
at most `2^-150`. -/
theorem weights_at_h_float (c : ℝ) :
    fin 1 + pow (fin c) 2 + h (fin c) = fin (1.05 + 0.85 * c ^ 2)
    ∧ (1.05 : ℝ) ≤ 1.05 + 0.85 * c ^ 2
    ∧ wD (fin c) (h (fin c)) = fin (0.5 * c ^ 2 / (1.05 + 0.85 * c ^ 2) ^ 3)
    ∧ wN (fin c) (h (fin c)) = fin (0.5 * |c| / (1.05 + 0.85 * c ^ 2) ^ 2)
    ∧ (∃ d : ℝ, wDFloat (fin c) (h (fin c)) = fin d ∧ 0 ≤ d)
    ∧ (∃ n : ℝ, wNFloat (fin c) (h (fin c)) = fin n ∧ 0 ≤ n)
    ∧ (c = 0 → wDFloat (fin c) (h (fin c)) = fin 0 ∧ wNFloat (fin c) (h (fin c)) = fin 0)
    ∧ (0.5 * c ^ 2 / (1.05 + 0.85 * c ^ 2) ^ 3 = 0 ↔ c = 0)
    ∧ (0.5 * |c| / (1.05 + 0.85 * c ^ 2) ^ 2 = 0 ↔ c = 0)
    ∧ (wDFloat (fin c) (h (fin c)) = fin 0
        ↔ 0.5 * c ^ 2 / (1.05 + 0.85 * c ^ 2) ^ 3 ≤ (1 / 2) ^ 150)
    ∧ (wNFloat (fin c) (h (fin c)) = fin 0
        ↔ 0.5 * |c| / (1.05 + 0.85 * c ^ 2) ^ 2 ≤ (1 / 2) ^ 150) := by
  obtain ⟨hbase, hge, hD, hN, hD0, hN0, hDiff, hNiff⟩ := weights_at_h_exact c
  have hDz := FloatVal.toFloat_eq_zero_iff _ hD0
  have hNz := FloatVal.toFloat_eq_zero_iff _ hN0
  rw [hD] at hDiff
  rw [hN] at hNiff
  refine ⟨hbase, hge, hD, hN, ?_, ?_, ?_, ?_, ?_, ?_, ?_⟩
  · rw [wDFloat, hD]
    exact FloatVal.toFloat_nonneg _ hD0
  · rw [wNFloat, hN]
    exact FloatVal.toFloat_nonneg _ hN0
  · intro hc
    have hqD : 0.5 * c ^ 2 / (1.05 + 0.85 * c ^ 2) ^ 3 = 0 := by rw [hc]; norm_num
    have hqN : 0.5 * |c| / (1.05 + 0.85 * c ^ 2) ^ 2 = 0 := by rw [hc]; norm_num
    rw [wDFloat, wNFloat, hD, hN]
    exact ⟨hDz.mpr (by rw [hqD]; positivity), hNz.mpr (by rw [hqN]; positivity)⟩
  · exact ⟨fun hq => hDiff.mp (by rw [hq]), fun hc => FloatVal.fin.inj (hDiff.mpr hc)⟩
  · exact ⟨fun hq => hNiff.mp (by rw [hq]), fun hc => FloatVal.fin.inj (hNiff.mpr hc)⟩
  · rw [wDFloat, hD]
    exact hDz
  · rw [wNFloat, hN]
    exact hNz

/-- Witness for C17 (amended): at `c = 0` both weights are zero. -/
theorem weights_at_h_float_witness :
    wDFloat (fin 0) (h (fin 0)) = fin 0 ∧ wNFloat (fin 0) (h (fin 0)) = fin 0 :=
  (weights_at_h_float 0).2.2.2.2.2.2.1 rfl

/-! ## CosTheta at infinite longitudinal momentum -/

/-- Counterexample to C18 as stated: `pz = +inf` is not zero and has the sign
of `pz = 1`, yet with the other arguments `(1, 1, 0, 0, 1, 0)` `CosTheta` is
`inf / inf`, NaN, at `pz = +inf` and `2` at `pz = 1`. -/
theorem CosTheta_pz_infinite :
    CosTheta (fin 1) pinf (fin 1) (fin 0) (fin 0) (fin 1) (fin 0) = nan
    ∧ CosTheta (fin 1) (fin 1) (fin 1) (fin 0) (fin 0) (fin 1) (fin 0) = fin 2 := by
  constructor
  · have hnum : fin 2 * (fin 1 * fin 1 - fin 0 * fin 0) * pinf = pinf := by
      simp only [fin_mul_fin, fin_sub_fin]
      show infTimes (2 * (1 * 1 - 0 * 0)) true = pinf
      norm_num [infTimes]
    have hden : sqrt (pow (fin 1) 2 * (pow (fin 1) 2 + pow (fin 0) 2)) * FloatVal.abs pinf
        = pinf := by
      simp only [pow_fin, fin_mul_fin, fin_add_fin]
      rw [sqrt_fin _ (by norm_num)]
      show infTimes (Real.sqrt (1 ^ 2 * (1 ^ 2 + 0 ^ 2))) true = pinf
      norm_num [infTimes]
    unfold CosTheta
    rw [hnum, hden]
    rfl
  · rw [CosTheta_fin, fin_div_fin _ _ (by norm_num)]
    norm_num

end VectorLibrary
